import Mathlib

/-!
Verification of the json-os term model, triple store and JSON-LD translator
(src/json-os.js) by a shallow embedding in Lean.

Modelling conventions:
* JSON values are the inductive `JVal`; JS string coercion (`String(v)`) is
  `jsToString`, JS truthiness is `truthy`.
* A `sym(u)` named node is `{uri: u, value: u, termType: 'NamedNode'}`: it is
  determined by its URI string, so subjects and predicates of stored triples
  (always produced by `sym`) are embedded as their URI strings.  An object
  slot of a triple may hold a named node, a `literal` (value, no uri field),
  or a raw JSON scalar (the translator stores non-object values unwrapped,
  including `null`); this is `StoreObj`.
* JS `String.prototype.replace` with a string pattern replaces only the first
  occurrence, anywhere in the string; this is `replaceFirst` (built on
  `splitFirst`).  `String.prototype.startsWith` is `strStartsWith`.
* Exceptions (the `TypeError`s reachable in `parseJsonLdToStore` and
  `findTypeURIs`) are modelled with `Except Unit` / `Option`: `.error ()`
  resp. `none` means the JS code throws.
-/

namespace JsonOs

/-- A JSON value (numbers are modelled as integers; no claim depends on
non-integer numerics). -/
inductive JVal where
  | jnull
  | jbool (b : Bool)
  | jnum (n : Int)
  | jstr (s : String)
  | jarr (xs : List JVal)
  | jobj (fields : List (String × JVal))

/-- JS truthiness of a JSON value (`if (v)`). -/
def truthy : JVal → Bool
  | .jnull => false
  | .jbool b => b
  | .jnum n => n != 0
  | .jstr s => s != ""
  | .jarr _ => true
  | .jobj _ => true

/-- Join strings with commas, as `Array.prototype.join(',')` does. -/
def joinComma : List String → String
  | [] => ""
  | [s] => s
  | s :: rest => s ++ "," ++ joinComma rest

mutual
/-- JS `String(v)` coercion of a JSON value. -/
def jsToString : JVal → String
  | .jnull => "null"
  | .jbool b => if b then "true" else "false"
  | .jnum n => toString n
  | .jstr s => s
  | .jarr xs => joinComma (jsToStringList xs)
  | .jobj _ => "[object Object]"

/-- Element-wise stringification used by `Array.prototype.join`:
`null` elements become the empty string. -/
def jsToStringList : List JVal → List String
  | [] => []
  | .jnull :: rest => "" :: jsToStringList rest
  | v :: rest => jsToString v :: jsToStringList rest
end

/-- Lookup of a key among an object's fields (`obj[k]`); `none` is JS
`undefined`. -/
def objGet (fs : List (String × JVal)) (k : String) : Option JVal :=
  match fs with
  | [] => none
  | (k', v) :: rest => if k' == k then some v else objGet rest k

/-- Property access `v[k]` for the named (non-index) keys the source uses;
on non-objects it yields `undefined` (the source never reads index keys via
this path).  Access on `null` throws and is handled at the call site. -/
def jsGet : JVal → String → Option JVal
  | .jobj fs, k => objGet fs k
  | _, _ => none

/-- Truthiness of a possibly-undefined value (`if (obj[k])`). -/
def truthyOpt : Option JVal → Bool
  | none => false
  | some v => truthy v

/-- `s.startsWith(pre)`. -/
def strStartsWith (s pre : String) : Bool :=
  pre.data.isPrefixOf s.data

/-- Split a character list at the first occurrence of `pat`, returning the
parts before and after it; `none` when `pat` does not occur. -/
def splitFirst : List Char → List Char → Option (List Char × List Char)
  | s, pat =>
    if pat.isPrefixOf s then some ([], s.drop pat.length)
    else
      match s with
      | [] => none
      | c :: rest =>
        match splitFirst rest pat with
        | some (b, a) => some (c :: b, a)
        | none => none

/-- JS `s.replace(pat, rep)` with a string pattern: replace the first
occurrence of `pat` anywhere in `s`, or return `s` unchanged. -/
def replaceFirst (s pat rep : String) : String :=
  match splitFirst s.data pat.data with
  | some (b, a) => ⟨b ++ rep.data ++ a⟩
  | none => s

/-- Whether `pat` occurs as a substring of `s`. -/
def containsSubstr (s pat : String) : Bool :=
  (splitFirst s.data pat.data).isSome

/-- `key.split(':')` on character lists. -/
def splitOnColon : List Char → List (List Char)
  | [] => [[]]
  | c :: rest =>
    let r := splitOnColon rest
    if c = ':' then [] :: r
    else
      match r with
      | h :: t => (c :: h) :: t
      | [] => [[c]]

/-- `key.split(':').pop()`: the segment after the last colon (the whole key
when it has no colon). -/
def lastSegment (k : String) : String :=
  ⟨(splitOnColon k.data).getLastD []⟩

/-- The rdf:type predicate URI (`RDF_TYPE` in the source). -/
def RDF_TYPE : String := "http://www.w3.org/1999/02/22-rdf-syntax-ns#type"

/-- The object slot of a stored triple: a `sym` named node, a literal, or a
raw (unwrapped) JSON scalar, including raw `null`. -/
inductive StoreObj where
  | node (uri : String)
  | lit (value : String)
  | null
  | rawStr (s : String)
  | rawNum (n : Int)
  | rawBool (b : Bool)
deriving DecidableEq

/-- `literal(val)` of the source: stringify and wrap. -/
def literal (v : JVal) : StoreObj :=
  .lit (jsToString v)

/-- A stored triple; subject and predicate are `sym` nodes, embedded as their
URI strings. -/
structure Triple where
  s : String
  p : String
  o : StoreObj
deriving DecidableEq

/-- The store's `normalize`: rewrite (the first occurrence of)
`https://schema.org/` to `http://schema.org/` for comparison only. -/
def normalize (uri : String) : String :=
  replaceFirst uri "https://schema.org/" "http://schema.org/"

/-- The store's `matchUri` on the URI strings extracted from its arguments
(for a `sym`, `a.uri || a.value` is its URI string). -/
def matchUri (a b : String) : Bool :=
  normalize a == normalize b

/-- `store.add(s, p, o)`: append, no deduplication, arguments stored
verbatim. -/
def add (st : List Triple) (s p : String) (o : StoreObj) : List Triple :=
  st ++ [⟨s, p, o⟩]

/-- `store.anyValue(s, p)`: first matching object as a string.  Mirrors
`t.o.value || t.o.uri || null` for object terms (so empty-string values fall
through) and `t.o != null ? String(t.o) : null` for raw scalars. -/
def anyValue (st : List Triple) (s p : String) : Option String :=
  match st with
  | [] => none
  | t :: rest =>
    if matchUri t.s s && matchUri t.p p then
      match t.o with
      | .node u => if u == "" then none else some u
      | .lit v => if v == "" then none else some v
      | .null => none
      | .rawStr v => some v
      | .rawNum n => some (toString n)
      | .rawBool b => some (if b then "true" else "false")
    else anyValue rest s p

/-- `store.any(s, p)`: first matching object as a term; raw scalars are
wrapped as `{value: String(o), uri: undefined, termType: 'Literal'}`, raw
`null` yields JS `null`. -/
def any (st : List Triple) (s p : String) : Option StoreObj :=
  match st with
  | [] => none
  | t :: rest =>
    if matchUri t.s s && matchUri t.p p then
      match t.o with
      | .node u => some (.node u)
      | .lit v => some (.lit v)
      | .null => none
      | .rawStr v => some (.lit v)
      | .rawNum n => some (.lit (toString n))
      | .rawBool b => some (.lit (if b then "true" else "false"))
    else any rest s p

/-- `store.each(s, p)`: all matching objects in insertion order; raw scalars
wrapped as literals, raw `null` objects skipped. -/
def each (st : List Triple) (s p : String) : List StoreObj :=
  match st with
  | [] => []
  | t :: rest =>
    if matchUri t.s s && matchUri t.p p then
      match t.o with
      | .node u => .node u :: each rest s p
      | .lit v => .lit v :: each rest s p
      | .null => each rest s p
      | .rawStr v => .lit v :: each rest s p
      | .rawNum n => .lit (toString n) :: each rest s p
      | .rawBool b => .lit (if b then "true" else "false") :: each rest s p
    else each rest s p

/-- The alternate schema.org scheme variant(s) `findTypeURIs` also indexes
for a found type URI. -/
def schemaVariants (u : String) : List String :=
  if strStartsWith u "http://schema.org/" then [replaceFirst u "http://" "https://"]
  else if strStartsWith u "https://schema.org/" then [replaceFirst u "https://" "http://"]
  else []

/-- `store.findTypeURIs(s)`: the keys (in insertion order, duplicates kept;
the JS object deduplicates keys but membership is unchanged) of the
`{uri: true}` result.  `none` models the TypeErrors: `t.o.uri` on a raw
`null` object (`typeof null === 'object'`), and `uri.startsWith` on a raw
truthy number or `true` boolean. -/
def findTypeURIs (st : List Triple) (s : String) : Option (List String) :=
  match st with
  | [] => some []
  | t :: rest =>
    if matchUri t.s s && (normalize t.p == RDF_TYPE) then
      match t.o with
      | .node u =>
        if u == "" then findTypeURIs rest s
        else (findTypeURIs rest s).map (fun tail => u :: schemaVariants u ++ tail)
      | .lit _ => findTypeURIs rest s
      | .null => none
      | .rawStr v =>
        if v == "" then findTypeURIs rest s
        else (findTypeURIs rest s).map (fun tail => v :: schemaVariants v ++ tail)
      | .rawNum n => if n == 0 then findTypeURIs rest s else none
      | .rawBool b => if b then none else findTypeURIs rest s
    else findTypeURIs rest s

/-! ## JSON-LD → Store translator (`resolvePrefix`, `parseJsonLdToStore`) -/

/-- A translation context: the `prefix → expansion base` entries of `ctx`,
in insertion order (built from `@context`, string values only). -/
abbrev Ctx := List (String × String)

/-- The `for (const [prefix, base] of Object.entries(context))` loop of
`resolvePrefix`: first entry whose `prefix + ':'` is a prefix of `key` wins;
the match replaces that first occurrence of `prefix + ':'` with `base`. -/
def resolveLoop (key : String) : Ctx → Option String
  | [] => none
  | (pfx, base) :: rest =>
    if strStartsWith key (pfx ++ ":") then some (replaceFirst key (pfx ++ ":") base)
    else resolveLoop key rest

/-- `resolvePrefix(key, context)`: `null` for `@`-keys; otherwise the first
matching context expansion, else the key unchanged (the absolute-URI check
and the final fallback both return the key). -/
def resolvePrefix (key : String) (context : Ctx) : Option String :=
  if strStartsWith key "@" then none
  else
    match resolveLoop key context with
    | some r => some r
    | none =>
      if strStartsWith key "http://" || strStartsWith key "https://" then some key
      else some key

/-- Context construction in `parseJsonLdToStore`: if `jsonld['@context']` is
truthy, a non-array object, keep its string-valued entries; otherwise the
context is empty. -/
def buildCtx (jsonld : JVal) : Ctx :=
  match jsGet jsonld "@context" with
  | some raw =>
    if truthy raw then
      match raw with
      | .jobj fs =>
        fs.filterMap (fun kv =>
          match kv.2 with
          | .jstr s => some (kv.1, s)
          | _ => none)
      | _ => []
    else []
  | none => []

/-- `baseUri + (jsonld['@id'] || '#thing')`: the root URI; note `||`, so a
falsy `@id` (absent, empty string, 0, false, null) yields `#thing`, and a
truthy `@id` is coerced with `String(...)` by the concatenation. -/
def rootId (jsonld : JVal) (baseUri : String) : String :=
  baseUri ++
    (match jsGet jsonld "@id" with
     | some v => if truthy v then jsToString v else "#thing"
     | none => "#thing")

/-- The `@type` handling of `addTriples`: when `node['@type']` is truthy it
is passed to `resolvePrefix`, which calls `.startsWith` on it — a TypeError
(`.error ()`) when it is not a string.  For a string the type URI is
`resolvePrefix(ty, ctx) || ty` (a falsy resolution falls back to the raw
value). -/
def typeTriples (ctx : Ctx) (fs : List (String × JVal)) (u : String) :
    Except Unit (List Triple) :=
  match objGet fs "@type" with
  | some v =>
    if truthy v then
      match v with
      | .jstr ty =>
        let typeUri :=
          match resolvePrefix ty ctx with
          | some r => if r == "" then ty else r
          | none => ty
        .ok [⟨u, RDF_TYPE, .node typeUri⟩]
      | _ => .error ()
    else .ok []
  | none => .ok []

/-- The raw store object for a non-array, non-object value reaching the
`store.add(subject, pred, val)` fallthrough. -/
def rawOf : JVal → Option StoreObj
  | .jnull => some .null
  | .jbool b => some (.rawBool b)
  | .jnum n => some (.rawNum n)
  | .jstr s => some (.rawStr s)
  | _ => none

/-- Resolution of a nested object's `@id` to an absolute URI:
`id.startsWith('http') ? id : baseUri + id` — a TypeError when the truthy
`@id` is not a string. -/
def refUri (baseUri : String) : JVal → Except Unit String
  | .jstr s => .ok (if strStartsWith s "http" then s else baseUri ++ s)
  | _ => .error ()

def charTriplesAux (ctx : Ctx) (cs : List Char) (i : Nat) (u : String) :
    List Triple :=
  match cs with
  | [] => []
  | c :: rest =>
    let key := toString i
    let here :=
      if strStartsWith key "@" then []
      else
        match resolvePrefix key ctx with
        | none => ([] : List Triple)
        | some predUri =>
          if predUri == "" then []
          else [⟨u, predUri, .rawStr ⟨[c]⟩⟩]
    here ++ charTriplesAux ctx rest (i + 1) u

/-- Triples for a string node's index/character entries (`Object.entries` of
a string yields index/character pairs): every value is a one-character
string, i.e. a scalar, so the per-entry dispatch always takes the raw
branch; decimal index keys never start with `@`. -/
def charTriples (ctx : Ctx) (s : String) (u : String) : List Triple :=
  charTriplesAux ctx s.data 0 u

mutual

/-- `addTriples(node, subjectUri)` of the source, returning the emitted
triples in `store.add` order.  A `jobj` node gets its `@type` triple then its
properties; `Object.entries` of an array yields index/value pairs processed
through the same per-property dispatch; `Object.entries` of a string yields
index/character pairs (all scalar, handled by the non-recursive
`charTriples` below); numbers, booleans and `null` have no own entries. -/
def addTriples (ctx : Ctx) (baseUri : String) (node : JVal) (u : String) :
    Except Unit (List Triple) :=
  match node with
  | .jobj fs => do
    let t1 ← typeTriples ctx fs u
    let t2 ← addProps ctx baseUri fs u
    pure (t1 ++ t2)
  | .jarr xs => addElems ctx baseUri xs 0 u
  | .jstr s => .ok (charTriples ctx s u)
  | _ => .ok []

/-- The `Object.entries(node).forEach(([key, val]) => ...)` loop over an
object's fields. -/
def addProps (ctx : Ctx) (baseUri : String) (fs : List (String × JVal))
    (u : String) : Except Unit (List Triple) :=
  match fs with
  | [] => .ok []
  | (k, v) :: rest => do
    let t1 ← addOneProp ctx baseUri k v u
    let t2 ← addProps ctx baseUri rest u
    pure (t1 ++ t2)

/-- The same entries loop when the node is an array: keys are the decimal
index strings. -/
def addElems (ctx : Ctx) (baseUri : String) (xs : List JVal) (i : Nat)
    (u : String) : Except Unit (List Triple) :=
  match xs with
  | [] => .ok []
  | x :: rest => do
    let t1 ← addOneProp ctx baseUri (toString i) x u
    let t2 ← addElems ctx baseUri rest (i + 1) u
    pure (t1 ++ t2)

/-- The body of the entries loop for one `(key, val)` pair: skip `@`-keys;
skip a falsy resolved predicate (`if (!predUri) return`, which also drops a
predicate resolving to the empty string); then dispatch on the value's
shape.  A single nested object with truthy `@id` yields one reference triple
and no recursion; with absent/falsy `@id` it yields a blank-subject triple
(`subjectUri + '_' + key.split(':').pop()`) followed by the object's own
triples under the blank subject. -/
def addOneProp (ctx : Ctx) (baseUri : String) (key : String) (val : JVal)
    (u : String) : Except Unit (List Triple) :=
  if strStartsWith key "@" then .ok []
  else
    match resolvePrefix key ctx with
    | none => .ok []
    | some predUri =>
      if predUri == "" then .ok []
      else
        match val with
        | .jarr items => addItems ctx baseUri key items 0 u predUri
        | .jobj fs =>
          match objGet fs "@id" with
          | some idv =>
            if truthy idv then do
              let uri ← refUri baseUri idv
              pure [⟨u, predUri, .node uri⟩]
            else do
              let blank := u ++ "_" ++ lastSegment key
              let t1 ← typeTriples ctx fs blank
              let t2 ← addProps ctx baseUri fs blank
              pure (⟨u, predUri, .node blank⟩ :: (t1 ++ t2))
          | none => do
            let blank := u ++ "_" ++ lastSegment key
            let t1 ← typeTriples ctx fs blank
            let t2 ← addProps ctx baseUri fs blank
            pure (⟨u, predUri, .node blank⟩ :: (t1 ++ t2))
        | v =>
          match rawOf v with
          | some r => .ok [⟨u, predUri, r⟩]
          | none => .ok []

/-- The `val.forEach((item, i) => ...)` loop for an array-valued property:
a non-null object item without truthy `@id` gets the indexed blank subject
`subjectUri + '_' + key.split(':').pop() + '_' + i` and is recursed into; an
object item with truthy `@id` becomes a single reference triple; a scalar
item is stored raw. -/
def addItems (ctx : Ctx) (baseUri : String) (key : String) (items : List JVal)
    (i : Nat) (u : String) (predUri : String) : Except Unit (List Triple) :=
  match items with
  | [] => .ok []
  | item :: rest => do
    let t1 ←
      match item with
      | .jobj fs =>
        match objGet fs "@id" with
        | some idv =>
          if truthy idv then do
            let uri ← refUri baseUri idv
            pure [⟨u, predUri, .node uri⟩]
          else do
            let blank := u ++ "_" ++ lastSegment key ++ "_" ++ toString i
            let ts ← addTriples ctx baseUri (.jobj fs) blank
            pure (⟨u, predUri, .node blank⟩ :: ts)
        | none => do
          let blank := u ++ "_" ++ lastSegment key ++ "_" ++ toString i
          let ts ← addTriples ctx baseUri (.jobj fs) blank
          pure (⟨u, predUri, .node blank⟩ :: ts)
      | .jarr ys => do
        let blank := u ++ "_" ++ lastSegment key ++ "_" ++ toString i
        let ts ← addTriples ctx baseUri (.jarr ys) blank
        pure (⟨u, predUri, .node blank⟩ :: ts)
      | v =>
        match rawOf v with
        | some r => .ok ([⟨u, predUri, r⟩] : List Triple)
        | none => .ok []
    let t2 ← addItems ctx baseUri key rest (i + 1) u predUri
    pure (t1 ++ t2)

end

/-- The triples `addTriples` emits for an object node: `@type` first, then
the properties (used to state the recursive clauses of the claims). -/
def objNodeTriples (ctx : Ctx) (baseUri : String) (fs : List (String × JVal))
    (u : String) : Except Unit (List Triple) := do
  let t1 ← typeTriples ctx fs u
  let t2 ← addProps ctx baseUri fs u
  pure (t1 ++ t2)

/-- `parseJsonLdToStore(jsonld, baseUri, store)`: `.error ()` models the
TypeError of reading `jsonld['@context']` on `null`; otherwise the emitted
triples (in insertion order) and the root subject's URI. -/
def parseJsonLdToStore (jsonld : JVal) (baseUri : String) :
    Except Unit (List Triple × String) :=
  match jsonld with
  | .jnull => .error ()
  | _ =>
    let ctx := buildCtx jsonld
    let root := rootId jsonld baseUri
    match addTriples ctx baseUri jsonld root with
    | .ok ts => .ok (ts, root)
    | .error e => .error e

/-! ## Auxiliary definitions used in the statements of the claims -/

/-- The string `anyValue` extracts from a matching triple's object, read off
the amended claim: `value || uri || null` for terms (a `sym` has
`value = uri`; a literal has no uri), `String(o)` for non-null raw scalars,
`null` for raw `null`. -/
def objValueText : StoreObj → Option String
  | .node u => if u == "" then none else some u
  | .lit v => if v == "" then none else some v
  | .null => none
  | .rawStr v => some v
  | .rawNum n => some (toString n)
  | .rawBool b => some (if b then "true" else "false")

/-- The term `each` yields for one matching object: terms pass through, raw
scalars are wrapped as literals, raw `null` contributes nothing. -/
def wrapTerm : StoreObj → Option StoreObj
  | .node u => some (.node u)
  | .lit v => some (.lit v)
  | .null => none
  | .rawStr v => some (.lit v)
  | .rawNum n => some (.lit (toString n))
  | .rawBool b => some (.lit (if b then "true" else "false"))

/-- The store contents after a sequence of `add` calls starting from the
empty store. -/
def buildStore (ts : List Triple) : List Triple :=
  ts.foldl (fun st t => add st t.s t.p t.o) []

/-- Whether an optional value is absent, falsy, or a string — i.e. cannot
reach `.startsWith` as a non-string. -/
def strOrFalsy : Option JVal → Bool
  | none => true
  | some v =>
    match v with
    | .jstr _ => true
    | _ => !truthy v

mutual
/-- Well-formedness sufficient for the translator not to throw: the value is
reachable-throw-free — every object's truthy `@type` and truthy `@id` are
strings, recursively. -/
def jwf : JVal → Bool
  | .jobj fs => strOrFalsy (objGet fs "@type") && strOrFalsy (objGet fs "@id") && jwfFields fs
  | .jarr xs => jwfList xs
  | _ => true

def jwfFields : List (String × JVal) → Bool
  | [] => true
  | (_, v) :: rest => jwf v && jwfFields rest

def jwfList : List JVal → Bool
  | [] => true
  | v :: rest => jwf v && jwfList rest
end

/-! ## Theorems -/

/-- C10: the translator accepts a document mapping the absolute rdf:type URI
to `null` and stores an rdf:type triple with a raw `null` object; the
subsequent `findTypeURIs` call on the root subject then throws a TypeError
(dereferencing `t.o.uri` with `t.o = null`, since `typeof null ===
'object'`) instead of returning a mapping. -/
theorem C10_findTypeURIs_type_error :
    parseJsonLdToStore
        (.jobj [("http://www.w3.org/1999/02/22-rdf-syntax-ns#type", .jnull)])
        "http://ex/doc" =
      .ok ([⟨"http://ex/doc#thing", RDF_TYPE, .null⟩], "http://ex/doc#thing") ∧
    findTypeURIs [⟨"http://ex/doc#thing", RDF_TYPE, .null⟩] "http://ex/doc#thing" =
      none :=
  ⟨rfl, rfl⟩

/-- C2 (counterexample): a triple matching the query whose object is a
`Literal` with the empty-string value makes `anyValue` return `null`, not
the empty string (and not "null exactly when no triple matches"):
`t.o.value || t.o.uri || null` falls through on the falsy `""`. -/
theorem C2_anyValue_empty_literal_null :
    (matchUri "s" "s" && matchUri "p" "p") = true ∧
    anyValue [⟨"s", "p", .lit ""⟩] "s" "p" = none :=
  ⟨rfl, rfl⟩

/-- C2 (amended): `anyValue` scans in insertion order and returns, for the
first matching triple, `value || uri || null` of an object term (so a
Literal or NamedNode with empty-string value/URI yields `null`), the
stringification of a non-null raw scalar, and `null` for a raw `null`
object; `null` also when no triple matches. -/
theorem C2_anyValue_first_match (st : List Triple) (s p : String) :
    anyValue st s p =
      (st.find? (fun t => matchUri t.s s && matchUri t.p p)).bind
        (fun t => objValueText t.o) := by
  induction st with
  | nil => rfl
  | cons t rest ih =>
    obtain ⟨ts, tp, tob⟩ := t
    by_cases h : (matchUri ts s && matchUri tp p) = true
    · simp only [anyValue, List.find?, h]
      cases tob <;> rfl
    · rw [Bool.not_eq_true] at h
      simp [anyValue, List.find?, h, ih]

/-- C8 (counterexample): a matching triple whose object is a raw `null` is
silently skipped by `each`, so `each` does not return all matching objects. -/
theorem C8_each_skips_raw_null :
    (matchUri "s" "s" && matchUri "p" "p") = true ∧
    each [⟨"s", "p", .null⟩] "s" "p" = [] :=
  ⟨rfl, rfl⟩

/-- C8 (amended): `each` returns all matching non-null objects in insertion
order, raw scalars wrapped as Literals and raw `null` objects skipped; in
particular, for a document property mapped through the context to predicate
`http://example.org/ns#items` with value `["a","b","c"]`, the translator
stores three raw triples and `each(root, P)` returns the Literal-wrapped
values `"a"`, `"b"`, `"c"` in that order. -/
theorem C8_each_order :
    (∀ (st : List Triple) (s p : String),
      each st s p =
        st.filterMap (fun t =>
          if matchUri t.s s && matchUri t.p p then wrapTerm t.o else none)) ∧
    parseJsonLdToStore
        (.jobj [("@context", .jobj [("ex", .jstr "http://example.org/ns#")]),
                ("ex:items", .jarr [.jstr "a", .jstr "b", .jstr "c"])])
        "http://ex/doc" =
      .ok ([⟨"http://ex/doc#thing", "http://example.org/ns#items", .rawStr "a"⟩,
            ⟨"http://ex/doc#thing", "http://example.org/ns#items", .rawStr "b"⟩,
            ⟨"http://ex/doc#thing", "http://example.org/ns#items", .rawStr "c"⟩],
           "http://ex/doc#thing") ∧
    each [⟨"http://ex/doc#thing", "http://example.org/ns#items", .rawStr "a"⟩,
          ⟨"http://ex/doc#thing", "http://example.org/ns#items", .rawStr "b"⟩,
          ⟨"http://ex/doc#thing", "http://example.org/ns#items", .rawStr "c"⟩]
        "http://ex/doc#thing" "http://example.org/ns#items" =
      [.lit "a", .lit "b", .lit "c"] := by
  refine ⟨fun st s p => ?_, rfl, rfl⟩
  induction st with
  | nil => rfl
  | cons t rest ih =>
    obtain ⟨ts, tp, tob⟩ := t
    by_cases h : (matchUri ts s && matchUri tp p) = true
    · simp only [each, List.filterMap_cons, h]
      cases tob <;> simp [wrapTerm, ih]
    · rw [Bool.not_eq_true] at h
      simp only [each, List.filterMap_cons, h, Bool.false_eq_true, if_false, ih]

/-- C3 (counterexample): a root `@id` equal to the empty string is falsy, so
`baseUri + (jsonld['@id'] || '#thing')` yields `baseUri + "#thing"`, not
`baseUri + ""` as the claim (written with `??`) states. -/
theorem C3_empty_id_yields_thing :
    parseJsonLdToStore (.jobj [("@id", .jstr "")]) "http://ex/doc" =
      .ok ([], "http://ex/doc#thing") :=
  rfl

/-- C3 (amended): the root subject returned by the translator is
`baseUri + (document['@id'] || '#thing')`: the `#thing` fragment is used
exactly when the root `@id` is absent or falsy, so an absent `@id` and an
`@id` equal to the empty string both yield root `baseUri + "#thing"`, and a
non-empty string `@id` yields `baseUri + @id`. -/
theorem C3_root_id_default (fs : List (String × JVal)) (B : String)
    (ts : List Triple) (r : String)
    (h : parseJsonLdToStore (.jobj fs) B = .ok (ts, r)) :
    (objGet fs "@id" = none → r = B ++ "#thing") ∧
    (∀ s, objGet fs "@id" = some (.jstr s) →
      r = B ++ (if s = "" then "#thing" else s)) := by
  have hr : r = rootId (.jobj fs) B := by
    simp only [parseJsonLdToStore] at h
    cases hadd : addTriples (buildCtx (.jobj fs)) B (.jobj fs) (rootId (.jobj fs) B) with
    | ok ts' => rw [hadd] at h; injection h with h'; exact (Prod.mk.injEq .. |>.mp h').2.symm
    | error e => rw [hadd] at h; exact absurd h (by simp)
  constructor
  · intro hid
    rw [hr]
    simp [rootId, jsGet, hid]
  · intro s hid
    rw [hr]
    by_cases hs : s = ""
    · subst hs
      simp [rootId, jsGet, hid, truthy]
    · simp [rootId, jsGet, hid, truthy, hs, jsToString]

/-- C3 (witness): at the document `{"@id": "x"}` with base `b:` the theorem
yields root `b:x`. -/
theorem C3_root_id_default_witness :
    ("b:x" : String) = "b:" ++ (if ("x" : String) = "" then "#thing" else "x") :=
  (C3_root_id_default [("@id", .jstr "x")] "b:" [] "b:x" rfl).2 "x" rfl

/-- The context loop of `resolvePrefix` finds nothing when no entry's
`prefix + ':'` leads the key. -/
theorem resolveLoop_none (k : String) :
    ∀ C : Ctx, (∀ pb ∈ C, strStartsWith k (pb.1 ++ ":") = false) →
      resolveLoop k C = none := by
  intro C
  induction C with
  | nil => intro _; rfl
  | cons pb rest ih =>
    intro h
    obtain ⟨pfx, base⟩ := pb
    have h1 : strStartsWith k (pfx ++ ":") = false := h (pfx, base) (by simp)
    simp only [resolveLoop, h1, Bool.false_eq_true, if_false]
    exact ih (fun pb hm => h pb (List.mem_cons_of_mem _ hm))

/-- C4 (counterexample): the empty key does not start with `@` and resolves
to itself, but the translator drops it — `if (!predUri) return` treats the
resolved empty string as falsy — so keys other than `@`-keys can be
skipped, contradicting the claim that a triple is emitted under the
unchanged predicate and that only `@`-keys are skipped. -/
theorem C4_empty_key_dropped :
    strStartsWith "" "@" = false ∧
    resolvePrefix "" [] = some "" ∧
    parseJsonLdToStore (.jobj [("", .jstr "v")]) "http://ex/doc" =
      .ok ([], "http://ex/doc#thing") :=
  ⟨rfl, rfl, rfl⟩

/-- C4 (amended): when no context prefix matches a non-`@` key,
`resolvePrefix` returns the key unchanged (whether or not it is an absolute
http(s) URI, and also when it contains a colon with an unknown prefix), and
the translator emits a triple under that unchanged predicate for a scalar
value — except that a key resolving to the empty string is skipped
(`if (!predUri) return`), so only `@`-keys and keys resolving to the empty
string are dropped. -/
theorem C4_unresolved_key_unchanged (k : String) (C : Ctx)
    (hk : strStartsWith k "@" = false)
    (hnm : ∀ pb ∈ C, strStartsWith k (pb.1 ++ ":") = false) :
    resolvePrefix k C = some k ∧
    (∀ (B : String) (v : JVal) (r : StoreObj) (u : String),
      k ≠ "" → rawOf v = some r →
      addOneProp C B k v u = .ok [⟨u, k, r⟩]) := by
  have hloop : resolveLoop k C = none := resolveLoop_none k C hnm
  have hres : resolvePrefix k C = some k := by
    simp only [resolvePrefix, hk, Bool.false_eq_true, if_false, hloop]
    split <;> rfl
  refine ⟨hres, ?_⟩
  intro B v r u hke hraw
  have hkb : (k == "") = false := by
    simp [hke]
  cases v with
  | jarr xs => exact Option.noConfusion hraw
  | jobj fs => exact Option.noConfusion hraw
  | jnull =>
    injection hraw with hr
    subst hr
    simp [addOneProp, hk, hres, hkb, rawOf]
  | jbool b =>
    injection hraw with hr
    subst hr
    simp [addOneProp, hk, hres, hkb, rawOf]
  | jnum n =>
    injection hraw with hr
    subst hr
    simp [addOneProp, hk, hres, hkb, rawOf]
  | jstr s =>
    injection hraw with hr
    subst hr
    simp [addOneProp, hk, hres, hkb, rawOf]

/-- C4 (witness): the key `unknown:name` (colon, unknown prefix, not
absolute) resolves to itself under the context `{"ex": "http://e/"}` and a
string value yields the corresponding raw triple. -/
theorem C4_unresolved_key_unchanged_witness :
    resolvePrefix "unknown:name" [("ex", "http://e/")] = some "unknown:name" ∧
    addOneProp [("ex", "http://e/")] "b:" "unknown:name" (.jstr "v") "u" =
      .ok [⟨"u", "unknown:name", .rawStr "v"⟩] :=
  ⟨(C4_unresolved_key_unchanged "unknown:name" [("ex", "http://e/")] rfl
      (by intro pb hm; simp at hm; subst hm; rfl)).1,
   (C4_unresolved_key_unchanged "unknown:name" [("ex", "http://e/")] rfl
      (by intro pb hm; simp at hm; subst hm; rfl)).2 "b:" (.jstr "v")
      (.rawStr "v") "u" (by decide) rfl⟩

/-- Monadic bind on `Except Unit` applied to a success. -/
theorem exc_bind_ok {α β : Type} (a : α) (f : α → Except Unit β) :
    (Except.ok a >>= f) = f a := rfl

/-- Monadic bind on `Except Unit` applied to a failure. -/
theorem exc_bind_error {α β : Type} (e : Unit) (f : α → Except Unit β) :
    ((Except.error e : Except Unit α) >>= f) = .error e := rfl

/-- Functor map on `Except Unit` applied to a success. -/
theorem exc_fmap_ok {α β : Type} (g : α → β) (a : α) :
    (g <$> (Except.ok a : Except Unit α)) = .ok (g a) := rfl

/-- Functor map on `Except Unit` applied to a failure. -/
theorem exc_fmap_error {α β : Type} (g : α → β) (e : Unit) :
    (g <$> (.error e : Except Unit α)) = (.error e : Except Unit β) := rfl

/-- `Except.map` applied to a success. -/
theorem exc_map_ok {α β : Type} (g : α → β) (a : α) :
    Except.map g (Except.ok a : Except Unit α) = .ok (g a) := rfl

/-- `Except.map` applied to a failure. -/
theorem exc_map_error {α β : Type} (g : α → β) (e : Unit) :
    Except.map g (.error e : Except Unit α) = (.error e : Except Unit β) := rfl

/-- `Except.bind` applied to a success. -/
theorem exc_bbind_ok {α β : Type} (a : α) (f : α → Except Unit β) :
    Except.bind (Except.ok a) f = f a := rfl

/-- `Except.bind` applied to a failure. -/
theorem exc_bbind_error {α β : Type} (e : Unit) (f : α → Except Unit β) :
    Except.bind (Except.error e) f = .error e := rfl

/-- C7 (counterexample): a nested object whose `@id` key holds the empty
string has an `@id` key, yet the translator does not emit a reference
triple: the falsy `@id` sends it to the blank-subject branch, which also
recurses into the object's own properties (here `name`). -/
theorem C7_falsy_id_recurses :
    parseJsonLdToStore
        (.jobj [("child", .jobj [("@id", .jstr ""), ("name", .jstr "x")])])
        "http://ex/doc" =
      .ok ([⟨"http://ex/doc#thing", "child", .node "http://ex/doc#thing_child"⟩,
            ⟨"http://ex/doc#thing_child", "name", .rawStr "x"⟩],
           "http://ex/doc#thing") :=
  rfl

/-- C7 (amended): a nested value (single object value or array element) that
is an object with a truthy string `@id` produces exactly one reference
triple `(subject, predicate, namedNode(@id starts with 'http' ? @id :
baseUri + @id))` and no triples from the object's own properties; a nested
object with no `@id` key produces a blank-subject triple followed by the
object's full recursive triples under the blank subject. -/
theorem C7_reference_vs_embedding (ctx : Ctx) (B k u p' : String)
    (fs : List (String × JVal))
    (h1 : resolvePrefix k ctx = some p') (h2 : p' ≠ "") :
    (∀ s, objGet fs "@id" = some (.jstr s) → s ≠ "" →
      addOneProp ctx B k (.jobj fs) u =
        .ok [⟨u, p', .node (if strStartsWith s "http" then s else B ++ s)⟩]) ∧
    (objGet fs "@id" = none →
      addOneProp ctx B k (.jobj fs) u =
        (objNodeTriples ctx B fs (u ++ "_" ++ lastSegment k)).map
          (fun ts => ⟨u, p', .node (u ++ "_" ++ lastSegment k)⟩ :: ts)) ∧
    (∀ s rest i, objGet fs "@id" = some (.jstr s) → s ≠ "" →
      addItems ctx B k (.jobj fs :: rest) i u p' =
        (addItems ctx B k rest (i + 1) u p').map
          (fun t2 =>
            ⟨u, p', .node (if strStartsWith s "http" then s else B ++ s)⟩ :: t2)) ∧
    (∀ rest i, objGet fs "@id" = none →
      addItems ctx B k (.jobj fs :: rest) i u p' =
        (addTriples ctx B (.jobj fs)
            (u ++ "_" ++ lastSegment k ++ "_" ++ toString i)).bind
          (fun ts => (addItems ctx B k rest (i + 1) u p').map
            (fun t2 =>
              (⟨u, p', .node (u ++ "_" ++ lastSegment k ++ "_" ++ toString i)⟩ ::
                ts) ++ t2))) := by
  have hk : strStartsWith k "@" = false := by
    by_cases hk' : strStartsWith k "@" = true
    · rw [resolvePrefix, if_pos hk'] at h1
      exact absurd h1 (by simp)
    · exact Bool.not_eq_true _ ▸ hk'
  have hp'b : (p' == "") = false := by simp [h2]
  refine ⟨?_, ?_, ?_, ?_⟩
  · intro s hid hs
    have hsb : (s != "") = true := by simp [hs]
    simp [addOneProp, hk, h1, hp'b, hid, truthy, hsb, refUri]
  · intro hid
    simp only [addOneProp, hk, Bool.false_eq_true, if_false, h1, hp'b, hid]
    cases htt : typeTriples ctx fs (u ++ "_" ++ lastSegment k) with
    | error e => simp [objNodeTriples, htt, exc_bind_ok, exc_bind_error, exc_fmap_ok, exc_fmap_error, exc_map_ok, exc_map_error, exc_bbind_ok, exc_bbind_error]
    | ok t1 =>
      cases hap : addProps ctx B fs (u ++ "_" ++ lastSegment k) with
      | error e => simp [objNodeTriples, htt, hap, exc_bind_ok, exc_bind_error, exc_fmap_ok, exc_fmap_error, exc_map_ok, exc_map_error, exc_bbind_ok, exc_bbind_error]
      | ok t2 => simp [objNodeTriples, htt, hap, exc_bind_ok, exc_bind_error, exc_fmap_ok, exc_fmap_error, exc_map_ok, exc_map_error, exc_bbind_ok, exc_bbind_error]
  · intro s rest i hid hs
    have hsb : (s != "") = true := by simp [hs]
    simp only [addItems, hid, truthy, hsb, if_true, refUri]
    cases hrest : addItems ctx B k rest (i + 1) u p' with
    | error e => simp [hrest, exc_bind_ok, exc_bind_error, exc_fmap_ok, exc_fmap_error, exc_map_ok, exc_map_error, exc_bbind_ok, exc_bbind_error]
    | ok t2 => simp [hrest, exc_bind_ok, exc_bind_error, exc_fmap_ok, exc_fmap_error, exc_map_ok, exc_map_error, exc_bbind_ok, exc_bbind_error]
  · intro rest i hid
    simp only [addItems, hid]
    cases hrec : addTriples ctx B (.jobj fs)
        (u ++ "_" ++ lastSegment k ++ "_" ++ toString i) with
    | error e => simp [hrec, exc_bind_ok, exc_bind_error, exc_fmap_ok, exc_fmap_error, exc_map_ok, exc_map_error, exc_bbind_ok, exc_bbind_error]
    | ok ts =>
      cases hrest : addItems ctx B k rest (i + 1) u p' with
      | error e => simp [hrec, hrest, exc_bind_ok, exc_bind_error, exc_fmap_ok, exc_fmap_error, exc_map_ok, exc_map_error, exc_bbind_ok, exc_bbind_error]
      | ok t2 => simp [hrec, hrest, exc_bind_ok, exc_bind_error, exc_fmap_ok, exc_fmap_error, exc_map_ok, exc_map_error, exc_bbind_ok, exc_bbind_error]

/-- C7 (witness): a nested object `{"@id": "http://x/1"}` under key `child`
yields exactly the single reference triple. -/
theorem C7_reference_vs_embedding_witness :
    addOneProp [] "b:" "child" (.jobj [("@id", .jstr "http://x/1")]) "u" =
      .ok [⟨"u", "child", .node "http://x/1"⟩] := by
  have h := (C7_reference_vs_embedding [] "b:" "child" "u" "child"
    [("@id", .jstr "http://x/1")] rfl (by decide)).1 "http://x/1" rfl (by decide)
  rw [h]
  rfl

/-- C9: a nested object whose `@id` value is falsy (empty string, 0, false,
or null) takes the same blank-subject branch as an object with no `@id`:
the blank URI is synthesized from the parent subject and key (plus the
index, for an array element), a triple to it is emitted, and the object's
own properties are recursed into — no reference triple to `baseUri + @id`
is emitted. -/
theorem C9_falsy_id_blank (ctx : Ctx) (B k u p' : String)
    (fs : List (String × JVal)) (idv : JVal)
    (h1 : resolvePrefix k ctx = some p') (h2 : p' ≠ "")
    (hid : objGet fs "@id" = some idv) (hf : truthy idv = false) :
    (addOneProp ctx B k (.jobj fs) u =
      (objNodeTriples ctx B fs (u ++ "_" ++ lastSegment k)).map
        (fun ts => ⟨u, p', .node (u ++ "_" ++ lastSegment k)⟩ :: ts)) ∧
    (∀ rest i, addItems ctx B k (.jobj fs :: rest) i u p' =
      (addTriples ctx B (.jobj fs)
          (u ++ "_" ++ lastSegment k ++ "_" ++ toString i)).bind
        (fun ts => (addItems ctx B k rest (i + 1) u p').map
          (fun t2 =>
            (⟨u, p', .node (u ++ "_" ++ lastSegment k ++ "_" ++ toString i)⟩ ::
              ts) ++ t2))) := by
  have hk : strStartsWith k "@" = false := by
    by_cases hk' : strStartsWith k "@" = true
    · rw [resolvePrefix, if_pos hk'] at h1
      exact absurd h1 (by simp)
    · exact Bool.not_eq_true _ ▸ hk'
  have hp'b : (p' == "") = false := by simp [h2]
  constructor
  · simp only [addOneProp, hk, Bool.false_eq_true, if_false, h1, hp'b, hid, hf]
    cases htt : typeTriples ctx fs (u ++ "_" ++ lastSegment k) with
    | error e => simp [objNodeTriples, htt, exc_bind_ok, exc_bind_error, exc_fmap_ok, exc_fmap_error, exc_map_ok, exc_map_error, exc_bbind_ok, exc_bbind_error]
    | ok t1 =>
      cases hap : addProps ctx B fs (u ++ "_" ++ lastSegment k) with
      | error e => simp [objNodeTriples, htt, hap, exc_bind_ok, exc_bind_error, exc_fmap_ok, exc_fmap_error, exc_map_ok, exc_map_error, exc_bbind_ok, exc_bbind_error]
      | ok t2 => simp [objNodeTriples, htt, hap, exc_bind_ok, exc_bind_error, exc_fmap_ok, exc_fmap_error, exc_map_ok, exc_map_error, exc_bbind_ok, exc_bbind_error]
  · intro rest i
    simp only [addItems, hid, hf, Bool.false_eq_true, if_false]
    cases hrec : addTriples ctx B (.jobj fs)
        (u ++ "_" ++ lastSegment k ++ "_" ++ toString i) with
    | error e => simp [hrec, exc_bind_ok, exc_bind_error, exc_fmap_ok, exc_fmap_error, exc_map_ok, exc_map_error, exc_bbind_ok, exc_bbind_error]
    | ok ts =>
      cases hrest : addItems ctx B k rest (i + 1) u p' with
      | error e => simp [hrec, hrest, exc_bind_ok, exc_bind_error, exc_fmap_ok, exc_fmap_error, exc_map_ok, exc_map_error, exc_bbind_ok, exc_bbind_error]
      | ok t2 => simp [hrec, hrest, exc_bind_ok, exc_bind_error, exc_fmap_ok, exc_fmap_error, exc_map_ok, exc_map_error, exc_bbind_ok, exc_bbind_error]

/-- C9 (witness): a nested object `{"@id": "", "name": "x"}` under key
`child` yields the blank-subject triple and the recursive `name` triple, not
a reference triple to `b:`. -/
theorem C9_falsy_id_blank_witness :
    addOneProp [] "b:" "child"
        (.jobj [("@id", .jstr ""), ("name", .jstr "x")]) "u" =
      .ok [⟨"u", "child", .node "u_child"⟩, ⟨"u_child", "name", .rawStr "x"⟩] := by
  have h := (C9_falsy_id_blank [] "b:" "child" "u" "child"
    [("@id", .jstr ""), ("name", .jstr "x")] (.jstr "")
    rfl (by decide) rfl rfl).1
  rw [h]
  rfl

/-- Completeness half for C5: every matching rdf:type triple with a
NamedNode object of nonempty URI contributes that URI and its schema.org
scheme variants to the result of a successful `findTypeURIs`. -/
theorem findTypeURIs_mem_aux (s : String) :
    ∀ (st : List Triple) (m : List String),
      findTypeURIs st s = some m →
      ∀ t ∈ st, (matchUri t.s s && (normalize t.p == RDF_TYPE)) = true →
        ∀ u, t.o = .node u → u ≠ "" →
          u ∈ m ∧ ∀ w ∈ schemaVariants u, w ∈ m := by
  intro st
  induction st with
  | nil =>
    intro m hm t ht
    exact absurd ht (List.not_mem_nil t)
  | cons t0 rest ih =>
    intro m hm t ht hcond u ho hu
    obtain ⟨a0, p0, o0⟩ := t0
    by_cases hc : (matchUri a0 s && (normalize p0 == RDF_TYPE)) = true
    · cases o0 with
      | node u0 =>
        by_cases hu0 : u0 = ""
        · simp only [findTypeURIs, hc, if_true, hu0] at hm
          rcases List.mem_cons.mp ht with he | hmem
          · subst he
            simp only at ho
            injection ho with ho'
            exact absurd (ho'.symm.trans hu0) hu
          · exact ih m (by simpa using hm) t hmem hcond u ho hu
        · cases hr : findTypeURIs rest s with
          | none => simp [findTypeURIs, hc, hu0, hr] at hm
          | some tail =>
            have hmm : m = u0 :: (schemaVariants u0 ++ tail) := by
              simp [findTypeURIs, hc, hu0, hr] at hm
              exact hm.symm
            subst hmm
            rcases List.mem_cons.mp ht with he | hmem
            · subst he
              simp only at ho
              injection ho with ho'
              subst ho'
              refine ⟨List.mem_cons_self _ _, fun w hw => ?_⟩
              exact List.mem_cons_of_mem _ (List.mem_append_left _ hw)
            · have ⟨h1, h2⟩ := ih tail hr t hmem hcond u ho hu
              exact ⟨List.mem_cons_of_mem _ (List.mem_append_right _ h1),
                fun w hw => List.mem_cons_of_mem _
                  (List.mem_append_right _ (h2 w hw))⟩
      | lit v0 =>
        simp only [findTypeURIs, hc, if_true] at hm
        rcases List.mem_cons.mp ht with he | hmem
        · subst he
          simp only at ho
          exact absurd ho (by simp)
        · exact ih m hm t hmem hcond u ho hu
      | null => simp [findTypeURIs, hc] at hm
      | rawStr v0 =>
        by_cases hv0 : v0 = ""
        · simp only [findTypeURIs, hc, if_true, hv0] at hm
          rcases List.mem_cons.mp ht with he | hmem
          · subst he
            simp only at ho
            exact absurd ho (by simp)
          · exact ih m (by simpa using hm) t hmem hcond u ho hu
        · cases hr : findTypeURIs rest s with
          | none => simp [findTypeURIs, hc, hv0, hr] at hm
          | some tail =>
            have hmm : m = v0 :: (schemaVariants v0 ++ tail) := by
              simp [findTypeURIs, hc, hv0, hr] at hm
              exact hm.symm
            subst hmm
            rcases List.mem_cons.mp ht with he | hmem
            · subst he
              simp only at ho
              exact absurd ho (by simp)
            · have ⟨h1, h2⟩ := ih tail hr t hmem hcond u ho hu
              exact ⟨List.mem_cons_of_mem _ (List.mem_append_right _ h1),
                fun w hw => List.mem_cons_of_mem _
                  (List.mem_append_right _ (h2 w hw))⟩
      | rawNum n0 =>
        by_cases hn0 : n0 = 0
        · simp only [findTypeURIs, hc, if_true, hn0] at hm
          rcases List.mem_cons.mp ht with he | hmem
          · subst he
            simp only at ho
            exact absurd ho (by simp)
          · exact ih m (by simpa using hm) t hmem hcond u ho hu
        · simp [findTypeURIs, hc, hn0] at hm
      | rawBool b0 =>
        cases b0 with
        | true => simp [findTypeURIs, hc] at hm
        | false =>
          simp only [findTypeURIs, hc, if_true] at hm
          rcases List.mem_cons.mp ht with he | hmem
          · subst he
            simp only at ho
            exact absurd ho (by simp)
          · exact ih m (by simpa using hm) t hmem hcond u ho hu
    · rw [Bool.not_eq_true] at hc
      simp only [findTypeURIs, hc, Bool.false_eq_true, if_false] at hm
      rcases List.mem_cons.mp ht with he | hmem
      · subst he
        simp only at hcond
        exact absurd hcond (by simp [hc])
      · exact ih m hm t hmem hcond u ho hu

/-- Soundness half for C5: every member of a successful `findTypeURIs`
result is the URI of some matching rdf:type triple's object (NamedNode URI
or raw string) or one of its schema.org scheme variants. -/
theorem findTypeURIs_sound_aux (s : String) :
    ∀ (st : List Triple) (m : List String),
      findTypeURIs st s = some m →
      ∀ x ∈ m, ∃ t ∈ st,
        (matchUri t.s s && (normalize t.p == RDF_TYPE)) = true ∧
        ∃ u, (t.o = .node u ∨ t.o = .rawStr u) ∧
          (x = u ∨ x ∈ schemaVariants u) := by
  intro st
  induction st with
  | nil =>
    intro m hm x hx
    simp only [findTypeURIs, Option.some.injEq] at hm
    subst hm
    exact absurd hx (List.not_mem_nil x)
  | cons t0 rest ih =>
    intro m hm x hx
    obtain ⟨a0, p0, o0⟩ := t0
    by_cases hc : (matchUri a0 s && (normalize p0 == RDF_TYPE)) = true
    · cases o0 with
      | node u0 =>
        by_cases hu0 : u0 = ""
        · simp only [findTypeURIs, hc, if_true, hu0] at hm
          obtain ⟨t, htm, h1, h2⟩ := ih m (by simpa using hm) x hx
          exact ⟨t, List.mem_cons_of_mem _ htm, h1, h2⟩
        · cases hr : findTypeURIs rest s with
          | none => simp [findTypeURIs, hc, hu0, hr] at hm
          | some tail =>
            have hmm : m = u0 :: (schemaVariants u0 ++ tail) := by
              simp [findTypeURIs, hc, hu0, hr] at hm
              exact hm.symm
            subst hmm
            rcases List.mem_cons.mp hx with hxu | hxr
            · exact ⟨⟨a0, p0, .node u0⟩, List.mem_cons_self _ _, hc,
                u0, Or.inl rfl, Or.inl hxu⟩
            · rcases List.mem_append.mp hxr with hxv | hxt
              · exact ⟨⟨a0, p0, .node u0⟩, List.mem_cons_self _ _, hc,
                  u0, Or.inl rfl, Or.inr hxv⟩
              · obtain ⟨t, htm, h1, h2⟩ := ih tail hr x hxt
                exact ⟨t, List.mem_cons_of_mem _ htm, h1, h2⟩
      | lit v0 =>
        simp only [findTypeURIs, hc, if_true] at hm
        obtain ⟨t, htm, h1, h2⟩ := ih m hm x hx
        exact ⟨t, List.mem_cons_of_mem _ htm, h1, h2⟩
      | null => simp [findTypeURIs, hc] at hm
      | rawStr v0 =>
        by_cases hv0 : v0 = ""
        · simp only [findTypeURIs, hc, if_true, hv0] at hm
          obtain ⟨t, htm, h1, h2⟩ := ih m (by simpa using hm) x hx
          exact ⟨t, List.mem_cons_of_mem _ htm, h1, h2⟩
        · cases hr : findTypeURIs rest s with
          | none => simp [findTypeURIs, hc, hv0, hr] at hm
          | some tail =>
            have hmm : m = v0 :: (schemaVariants v0 ++ tail) := by
              simp [findTypeURIs, hc, hv0, hr] at hm
              exact hm.symm
            subst hmm
            rcases List.mem_cons.mp hx with hxu | hxr
            · exact ⟨⟨a0, p0, .rawStr v0⟩, List.mem_cons_self _ _, hc,
                v0, Or.inr rfl, Or.inl hxu⟩
            · rcases List.mem_append.mp hxr with hxv | hxt
              · exact ⟨⟨a0, p0, .rawStr v0⟩, List.mem_cons_self _ _, hc,
                  v0, Or.inr rfl, Or.inr hxv⟩
              · obtain ⟨t, htm, h1, h2⟩ := ih tail hr x hxt
                exact ⟨t, List.mem_cons_of_mem _ htm, h1, h2⟩
      | rawNum n0 =>
        by_cases hn0 : n0 = 0
        · simp only [findTypeURIs, hc, if_true, hn0] at hm
          obtain ⟨t, htm, h1, h2⟩ := ih m (by simpa using hm) x hx
          exact ⟨t, List.mem_cons_of_mem _ htm, h1, h2⟩
        · simp [findTypeURIs, hc, hn0] at hm
      | rawBool b0 =>
        cases b0 with
        | true => simp [findTypeURIs, hc] at hm
        | false =>
          simp only [findTypeURIs, hc, if_true] at hm
          obtain ⟨t, htm, h1, h2⟩ := ih m (by simpa using hm) x hx
          exact ⟨t, List.mem_cons_of_mem _ htm, h1, h2⟩
    · rw [Bool.not_eq_true] at hc
      simp only [findTypeURIs, hc, Bool.false_eq_true, if_false] at hm
      obtain ⟨t, htm, h1, h2⟩ := ih m hm x hx
      exact ⟨t, List.mem_cons_of_mem _ htm, h1, h2⟩

/-- C5 (counterexample): a store containing an rdf:type triple whose object
URI is under schema.org and, later, an rdf:type triple with a raw `null`
object makes `findTypeURIs` throw a TypeError instead of returning any
mapping, so the claim fails over all stores. -/
theorem C5_findTypeURIs_raises_on_null :
    findTypeURIs
        [⟨"s", RDF_TYPE, .node "https://schema.org/Person"⟩,
         ⟨"s", RDF_TYPE, .null⟩] "s" = none :=
  rfl

/-- C5 (amended): whenever `findTypeURIs(s)` returns (i.e. no matching
rdf:type triple carries a raw `null`, truthy-number or `true` object), every
matching rdf:type triple whose object is a NamedNode with nonempty URI has
its URI in the mapping together with its cross-scheme schema.org
counterpart when the URI is under schema.org (`schemaVariants`), and every
mapped URI is a matching triple's stored object URI (NamedNode URI or raw
string) or a schema.org scheme variant of one — so for type URIs outside
schema.org only the stored URI is mapped. -/
theorem C5_findTypeURIs_scheme_pairs (st : List Triple) (s : String)
    (m : List String) (hm : findTypeURIs st s = some m) :
    (∀ t ∈ st, (matchUri t.s s && (normalize t.p == RDF_TYPE)) = true →
      ∀ u, t.o = .node u → u ≠ "" →
        u ∈ m ∧ ∀ w ∈ schemaVariants u, w ∈ m) ∧
    (∀ x ∈ m, ∃ t ∈ st,
      (matchUri t.s s && (normalize t.p == RDF_TYPE)) = true ∧
      ∃ u, (t.o = .node u ∨ t.o = .rawStr u) ∧
        (x = u ∨ x ∈ schemaVariants u)) :=
  ⟨findTypeURIs_mem_aux s st m hm, findTypeURIs_sound_aux s st m hm⟩

/-- C5 (witness): a stored `https://schema.org/Person` type triple reports
both schemes. -/
theorem C5_findTypeURIs_scheme_pairs_witness :
    ("https://schema.org/Person" : String) ∈
        (["https://schema.org/Person", "http://schema.org/Person"] : List String) ∧
    ("http://schema.org/Person" : String) ∈
        (["https://schema.org/Person", "http://schema.org/Person"] : List String) := by
  have h := (C5_findTypeURIs_scheme_pairs
    [⟨"s", RDF_TYPE, .node "https://schema.org/Person"⟩] "s"
    ["https://schema.org/Person", "http://schema.org/Person"] rfl).1
    ⟨"s", RDF_TYPE, .node "https://schema.org/Person"⟩ (by simp) rfl
    "https://schema.org/Person" rfl (by decide)
  exact ⟨h.1, h.2 "http://schema.org/Person" (by decide)⟩

/-- A pattern always leads the list made of it and a tail. -/
theorem isPrefixOf_append_self (pat xs : List Char) :
    pat.isPrefixOf (pat ++ xs) = true := by
  induction pat with
  | nil => simp [List.isPrefixOf]
  | cons c cs ih => simp [List.isPrefixOf, ih]

/-- A leading block of a list that a pattern leads, and that is no longer
than the pattern, is itself led by... i.e. is a prefix of the pattern. -/
theorem block_isPrefixOf_of_append (a pat xs : List Char)
    (hlen : a.length ≤ pat.length)
    (h : pat.isPrefixOf (a ++ xs) = true) :
    a.isPrefixOf pat = true := by
  induction a generalizing pat with
  | nil => simp [List.isPrefixOf]
  | cons c cs ih =>
    cases pat with
    | nil => simp at hlen
    | cons q qs =>
      simp only [List.cons_append, List.isPrefixOf, Bool.and_eq_true,
        beq_iff_eq] at h ⊢
      exact ⟨h.1.symm, ih qs (by simpa using hlen) h.2⟩

/-- Contrapositive form: a pattern cannot lead `a ++ xs` when the block `a`
(no longer than the pattern) is not one of the pattern's prefixes. -/
theorem isPrefixOf_append_eq_false (a pat xs : List Char)
    (hlen : a.length ≤ pat.length)
    (hnp : a.isPrefixOf pat = false) :
    pat.isPrefixOf (a ++ xs) = false := by
  cases h : pat.isPrefixOf (a ++ xs) with
  | false => rfl
  | true => exact absurd (block_isPrefixOf_of_append a pat xs hlen h) (by simp [hnp])

/-- The first occurrence of a pattern in the list starting with that pattern
splits off the remainder. -/
theorem splitFirst_self_append (pat xs : List Char) :
    splitFirst (pat ++ xs) pat = some ([], xs) := by
  rw [splitFirst.eq_def]
  simp [isPrefixOf_append_self, List.drop_left]

/-- A pattern absent from `xs` stays absent after prepending a block none of
whose nonempty suffixes is a prefix of the pattern. -/
theorem splitFirst_append_none (pat : List Char) :
    ∀ a xs, a.length ≤ pat.length →
      (∀ suf ∈ a.tails, suf ≠ [] → suf.isPrefixOf pat = false) →
      splitFirst xs pat = none →
      splitFirst (a ++ xs) pat = none := by
  intro a
  induction a with
  | nil => intro xs _ _ hx; simpa using hx
  | cons c cs ih =>
    intro xs hlen htails hx
    have hhead : (c :: cs).isPrefixOf pat = false :=
      htails (c :: cs) (by simp [List.tails_cons]) (by simp)
    have hfalse := isPrefixOf_append_eq_false (c :: cs) pat xs hlen hhead
    have hrest : splitFirst (cs ++ xs) pat = none :=
      ih xs (le_trans (by simp) hlen)
        (fun suf hs hne => htails suf (by simp [List.tails_cons, hs]) hne) hx
    have hfalse' : pat.isPrefixOf (c :: (cs ++ xs)) = false := hfalse
    rw [List.cons_append, splitFirst.eq_def]
    simp only [hfalse', Bool.false_eq_true, if_false, hrest]

/-- Scheme normalization fixes `http://schema.org/` URIs and rewrites
`https://schema.org/` URIs to the http scheme, whenever the rest of the URI
does not itself contain the substring `https://schema.org/`. -/
theorem normalize_schemes (X : String)
    (hX : containsSubstr X "https://schema.org/" = false) :
    normalize ("http://schema.org/" ++ X) = "http://schema.org/" ++ X ∧
    normalize ("https://schema.org/" ++ X) = "http://schema.org/" ++ X := by
  have hx : splitFirst X.data ("https://schema.org/" : String).data = none := by
    rw [containsSubstr] at hX
    cases h : splitFirst X.data ("https://schema.org/" : String).data with
    | none => rfl
    | some v => rw [h] at hX; simp at hX
  constructor
  · rw [normalize, replaceFirst, String.data_append]
    rw [splitFirst_append_none ("https://schema.org/" : String).data
      ("http://schema.org/" : String).data X.data (by decide)
      (by decide) hx]
  · rw [normalize, replaceFirst, String.data_append]
    rw [splitFirst_self_append]
    apply String.ext
    simp [String.data_append]

/-- Queries that normalize alike are interchangeable in `anyValue`. -/
theorem anyValue_congr (st : List Triple) (s1 s2 p1 p2 : String)
    (hs : normalize s1 = normalize s2) (hp : normalize p1 = normalize p2) :
    anyValue st s1 p1 = anyValue st s2 p2 := by
  induction st with
  | nil => rfl
  | cons t rest ih =>
    simp only [anyValue, matchUri, hs, hp, ih]

/-- Queries that normalize alike are interchangeable in `any`. -/
theorem any_congr (st : List Triple) (s1 s2 p1 p2 : String)
    (hs : normalize s1 = normalize s2) (hp : normalize p1 = normalize p2) :
    any st s1 p1 = any st s2 p2 := by
  induction st with
  | nil => rfl
  | cons t rest ih =>
    simp only [any, matchUri, hs, hp, ih]

/-- Queries that normalize alike are interchangeable in `each`. -/
theorem each_congr (st : List Triple) (s1 s2 p1 p2 : String)
    (hs : normalize s1 = normalize s2) (hp : normalize p1 = normalize p2) :
    each st s1 p1 = each st s2 p2 := by
  induction st with
  | nil => rfl
  | cons t rest ih =>
    simp only [each, matchUri, hs, hp, ih]

/-- Subjects that normalize alike are interchangeable in `findTypeURIs`. -/
theorem findTypeURIs_congr (st : List Triple) (s1 s2 : String)
    (hs : normalize s1 = normalize s2) :
    findTypeURIs st s1 = findTypeURIs st s2 := by
  induction st with
  | nil => rfl
  | cons t rest ih =>
    simp only [findTypeURIs, matchUri, hs, ih]

/-- C6 (counterexample): scheme equivalence fails when the rest of the URI
itself contains `https://schema.org/`: `normalize` replaces only the first
occurrence anywhere in the string, so the stored
`http://schema.org/https://schema.org/A` and the query
`https://schema.org/https://schema.org/A` (the same URI under the other
scheme) normalize to different strings and do not match. -/
theorem C6_scheme_equivalence_fails_nested :
    anyValue [⟨"http://schema.org/https://schema.org/A", "p", .rawStr "v"⟩]
      "https://schema.org/https://schema.org/A" "p" = none :=
  rfl

/-- C6 (amended): for URIs `http://schema.org/X` and `https://schema.org/X`
whose remainder `X` does not itself contain the substring
`https://schema.org/`, the two schemes normalize identically, so every read
operation (`anyValue`, `any`, `each`, `findTypeURIs`) gives the same result
for a query under either scheme, symmetrically and in either query
position; `add` and the store never rewrite the stored URI strings: a store
built by any sequence of `add` calls holds exactly the triples as inserted. -/
theorem C6_scheme_equivalence_reads :
    (∀ X : String, containsSubstr X "https://schema.org/" = false →
      normalize ("http://schema.org/" ++ X) = normalize ("https://schema.org/" ++ X)) ∧
    (∀ (st : List Triple) (s1 s2 p1 p2 : String),
      normalize s1 = normalize s2 → normalize p1 = normalize p2 →
      anyValue st s1 p1 = anyValue st s2 p2 ∧
      any st s1 p1 = any st s2 p2 ∧
      each st s1 p1 = each st s2 p2 ∧
      findTypeURIs st s1 = findTypeURIs st s2) ∧
    (∀ ts : List Triple, buildStore ts = ts) := by
  refine ⟨?_, ?_, ?_⟩
  · intro X hX
    have h := normalize_schemes X hX
    rw [h.1, h.2]
  · intro st s1 s2 p1 p2 hs hp
    exact ⟨anyValue_congr st s1 s2 p1 p2 hs hp, any_congr st s1 s2 p1 p2 hs hp,
      each_congr st s1 s2 p1 p2 hs hp, findTypeURIs_congr st s1 s2 hs⟩
  · have hgen : ∀ (ts acc : List Triple),
        ts.foldl (fun st t => add st t.s t.p t.o) acc = acc ++ ts := by
      intro ts
      induction ts with
      | nil => intro acc; exact (List.append_nil acc).symm
      | cons t rest ih =>
        intro acc
        rw [List.foldl_cons, ih, add, List.append_assoc]
        rfl
    intro ts
    rw [buildStore, hgen]
    exact List.nil_append ts

/-- C6 (witness): the two schemes of `schema.org/Person` are
interchangeable as a query subject. -/
theorem C6_scheme_equivalence_reads_witness :
    ∀ st : List Triple,
      anyValue st "http://schema.org/Person" "p" =
        anyValue st "https://schema.org/Person" "p" := by
  intro st
  exact (C6_scheme_equivalence_reads.2.1 st
    "http://schema.org/Person" "https://schema.org/Person" "p" "p"
    (C6_scheme_equivalence_reads.1 "Person" (by decide)) rfl).1

/-- A string-or-falsy `@type` makes the type-triple step succeed. -/
theorem typeTriples_ok (ctx : Ctx) (fs : List (String × JVal)) (u : String)
    (h : strOrFalsy (objGet fs "@type") = true) :
    ∃ ts, typeTriples ctx fs u = .ok ts := by
  cases hg : objGet fs "@type" with
  | none => exact ⟨[], by simp [typeTriples, hg]⟩
  | some v =>
    rw [hg] at h
    by_cases ht : truthy v = true
    · simp only [strOrFalsy] at h
      cases v with
      | jstr s =>
        exact ⟨[⟨u, RDF_TYPE,
          .node (match resolvePrefix s ctx with
                 | some r => if r == "" then s else r
                 | none => s)⟩], by simp [typeTriples, hg, ht]⟩
      | jnull => rw [ht] at h; simp at h
      | jbool b => rw [ht] at h; simp at h
      | jnum m => rw [ht] at h; simp at h
      | jarr xs => rw [ht] at h; simp at h
      | jobj gs => rw [ht] at h; simp at h
    · rw [Bool.not_eq_true] at ht
      exact ⟨[], by simp [typeTriples, hg, ht]⟩

/-- A truthy, string-or-falsy `@id` makes reference resolution succeed. -/
theorem refUri_ok (B : String) (idv : JVal)
    (h : strOrFalsy (some idv) = true) (ht : truthy idv = true) :
    ∃ r, refUri B idv = .ok r := by
  simp only [strOrFalsy] at h
  cases idv with
  | jstr s => exact ⟨_, rfl⟩
  | jnull => rw [ht] at h; simp at h
  | jbool b => rw [ht] at h; simp at h
  | jnum m => rw [ht] at h; simp at h
  | jarr xs => rw [ht] at h; simp at h
  | jobj gs => rw [ht] at h; simp at h

/-- A non-`@` key always resolves to some predicate string. -/
theorem resolvePrefix_isSome (k : String) (ctx : Ctx)
    (hk : strStartsWith k "@" = false) :
    ∃ r, resolvePrefix k ctx = some r := by
  cases hl : resolveLoop k ctx with
  | some r =>
    exact ⟨r, by simp only [resolvePrefix, hk, Bool.false_eq_true, if_false, hl]⟩
  | none =>
    refine ⟨k, ?_⟩
    simp only [resolvePrefix, hk, Bool.false_eq_true, if_false, hl]
    split <;> rfl

/-- Simultaneous totality of the translator's recursion on well-formed
inputs, by strong induction on size. -/
theorem addAll_ok :
    ∀ n : Nat,
      (∀ node : JVal, sizeOf node ≤ n → jwf node = true →
        ∀ ctx B u, ∃ ts, addTriples ctx B node u = .ok ts) ∧
      (∀ fs : List (String × JVal), sizeOf fs ≤ n → jwfFields fs = true →
        ∀ ctx B u, ∃ ts, addProps ctx B fs u = .ok ts) ∧
      (∀ xs : List JVal, sizeOf xs ≤ n → jwfList xs = true →
        ∀ ctx B i u, ∃ ts, addElems ctx B xs i u = .ok ts) ∧
      (∀ v : JVal, sizeOf v ≤ n → jwf v = true →
        ∀ ctx B k u, ∃ ts, addOneProp ctx B k v u = .ok ts) ∧
      (∀ items : List JVal, sizeOf items ≤ n → jwfList items = true →
        ∀ ctx B k i u pr, ∃ ts, addItems ctx B k items i u pr = .ok ts) := by
  intro n
  induction n using Nat.strong_induction_on with
  | _ n ih =>
  refine ⟨?_, ?_, ?_, ?_, ?_⟩
  · -- addTriples
    intro node hn hwf ctx B u
    cases node with
    | jobj fs =>
      have h1 : strOrFalsy (objGet fs "@type") = true ∧
          strOrFalsy (objGet fs "@id") = true ∧ jwfFields fs = true := by
        simpa [jwf, Bool.and_eq_true, and_assoc] using hwf
      obtain ⟨t1, hT⟩ := typeTriples_ok ctx fs u h1.1
      have hlt : sizeOf fs < n := by
        have : sizeOf fs < sizeOf (JVal.jobj fs) := by simp
        omega
      obtain ⟨t2, hP⟩ := (ih (sizeOf fs) hlt).2.1 fs le_rfl h1.2.2 ctx B u
      exact ⟨t1 ++ t2, by simp [addTriples, hT, hP, exc_bind_ok]⟩
    | jarr xs =>
      have hlt : sizeOf xs < n := by
        have : sizeOf xs < sizeOf (JVal.jarr xs) := by simp
        omega
      obtain ⟨ts, hts⟩ := (ih (sizeOf xs) hlt).2.2.1 xs le_rfl
        (by simpa [jwf] using hwf) ctx B 0 u
      exact ⟨ts, by simp [addTriples, hts]⟩
    | jstr s => exact ⟨charTriples ctx s u, rfl⟩
    | jnull => exact ⟨[], rfl⟩
    | jbool b => exact ⟨[], rfl⟩
    | jnum m => exact ⟨[], rfl⟩
  · -- addProps
    intro fs hn hwf ctx B u
    cases fs with
    | nil => exact ⟨[], rfl⟩
    | cons kv rest =>
      obtain ⟨k, v⟩ := kv
      have hw : jwf v = true ∧ jwfFields rest = true := by
        simpa [jwfFields, Bool.and_eq_true] using hwf
      have hltv : sizeOf v < n := by
        have : sizeOf v < sizeOf ((k, v) :: rest) := by simp; omega
        omega
      have hltr : sizeOf rest < n := by
        have : sizeOf rest < sizeOf ((k, v) :: rest) := by simp
        omega
      obtain ⟨t1, h1⟩ := (ih (sizeOf v) hltv).2.2.2.1 v le_rfl hw.1 ctx B k u
      obtain ⟨t2, h2⟩ := (ih (sizeOf rest) hltr).2.1 rest le_rfl hw.2 ctx B u
      exact ⟨t1 ++ t2, by simp [addProps, h1, h2, exc_bind_ok]⟩
  · -- addElems
    intro xs hn hwf ctx B i u
    cases xs with
    | nil => exact ⟨[], rfl⟩
    | cons x rest =>
      have hw : jwf x = true ∧ jwfList rest = true := by
        simpa [jwfList, Bool.and_eq_true] using hwf
      have hltx : sizeOf x < n := by
        have : sizeOf x < sizeOf (x :: rest) := by simp; omega
        omega
      have hltr : sizeOf rest < n := by
        have : sizeOf rest < sizeOf (x :: rest) := by simp
        omega
      obtain ⟨t1, h1⟩ := (ih (sizeOf x) hltx).2.2.2.1 x le_rfl hw.1 ctx B
        (toString i) u
      obtain ⟨t2, h2⟩ := (ih (sizeOf rest) hltr).2.2.1 rest le_rfl hw.2 ctx B
        (i + 1) u
      exact ⟨t1 ++ t2, by simp [addElems, h1, h2, exc_bind_ok]⟩
  · -- addOneProp
    intro v hn hwf ctx B k u
    by_cases hk : strStartsWith k "@" = true
    · exact ⟨[], by simp [addOneProp, hk]⟩
    rw [Bool.not_eq_true] at hk
    obtain ⟨r, hr⟩ := resolvePrefix_isSome k ctx hk
    by_cases hre : (r == "") = true
    · exact ⟨[], by simp [addOneProp, hk, hr, hre]⟩
    rw [Bool.not_eq_true] at hre
    cases v with
    | jarr items =>
      have hlt : sizeOf items < n := by
        have : sizeOf items < sizeOf (JVal.jarr items) := by simp
        omega
      obtain ⟨ts, hts⟩ := (ih (sizeOf items) hlt).2.2.2.2 items le_rfl
        (by simpa [jwf] using hwf) ctx B k 0 u r
      exact ⟨ts, by simp [addOneProp, hk, hr, hre, hts]⟩
    | jobj fs =>
      have hw : strOrFalsy (objGet fs "@type") = true ∧
          strOrFalsy (objGet fs "@id") = true ∧ jwfFields fs = true := by
        simpa [jwf, Bool.and_eq_true, and_assoc] using hwf
      have hltf : sizeOf fs < n := by
        have : sizeOf fs < sizeOf (JVal.jobj fs) := by simp
        omega
      cases hid : objGet fs "@id" with
      | some idv =>
        by_cases ht : truthy idv = true
        · have hsf : strOrFalsy (some idv) = true := by rw [← hid]; exact hw.2.1
          obtain ⟨uri, huri⟩ := refUri_ok B idv hsf ht
          exact ⟨[⟨u, r, .node uri⟩],
            by simp [addOneProp, hk, hr, hre, hid, ht, huri, exc_bind_ok]⟩
        · rw [Bool.not_eq_true] at ht
          obtain ⟨t1, h1⟩ := typeTriples_ok ctx fs (u ++ "_" ++ lastSegment k) hw.1
          obtain ⟨t2, h2⟩ := (ih (sizeOf fs) hltf).2.1 fs le_rfl hw.2.2 ctx B
            (u ++ "_" ++ lastSegment k)
          exact ⟨⟨u, r, .node (u ++ "_" ++ lastSegment k)⟩ :: (t1 ++ t2),
            by simp [addOneProp, hk, hr, hre, hid, ht, h1, h2, exc_bind_ok]⟩
      | none =>
        obtain ⟨t1, h1⟩ := typeTriples_ok ctx fs (u ++ "_" ++ lastSegment k) hw.1
        obtain ⟨t2, h2⟩ := (ih (sizeOf fs) hltf).2.1 fs le_rfl hw.2.2 ctx B
          (u ++ "_" ++ lastSegment k)
        exact ⟨⟨u, r, .node (u ++ "_" ++ lastSegment k)⟩ :: (t1 ++ t2),
          by simp [addOneProp, hk, hr, hre, hid, h1, h2, exc_bind_ok]⟩
    | jnull => exact ⟨[⟨u, r, .null⟩], by simp [addOneProp, hk, hr, hre, rawOf]⟩
    | jbool b =>
      exact ⟨[⟨u, r, .rawBool b⟩], by simp [addOneProp, hk, hr, hre, rawOf]⟩
    | jnum m =>
      exact ⟨[⟨u, r, .rawNum m⟩], by simp [addOneProp, hk, hr, hre, rawOf]⟩
    | jstr s =>
      exact ⟨[⟨u, r, .rawStr s⟩], by simp [addOneProp, hk, hr, hre, rawOf]⟩
  · -- addItems
    intro items hn hwf ctx B k i u pr
    cases items with
    | nil => exact ⟨[], rfl⟩
    | cons item rest =>
      have hw : jwf item = true ∧ jwfList rest = true := by
        simpa [jwfList, Bool.and_eq_true] using hwf
      have hlti : sizeOf item < n := by
        have : sizeOf item < sizeOf (item :: rest) := by simp; omega
        omega
      have hltr : sizeOf rest < n := by
        have : sizeOf rest < sizeOf (item :: rest) := by simp
        omega
      obtain ⟨t2, h2⟩ := (ih (sizeOf rest) hltr).2.2.2.2 rest le_rfl hw.2
        ctx B k (i + 1) u pr
      cases item with
      | jobj fs =>
        have hwo : strOrFalsy (objGet fs "@type") = true ∧
            strOrFalsy (objGet fs "@id") = true ∧ jwfFields fs = true := by
          simpa [jwf, Bool.and_eq_true, and_assoc] using hw.1
        cases hid : objGet fs "@id" with
        | some idv =>
          by_cases ht : truthy idv = true
          · have hsf : strOrFalsy (some idv) = true := by rw [← hid]; exact hwo.2.1
            obtain ⟨uri, huri⟩ := refUri_ok B idv hsf ht
            exact ⟨[⟨u, pr, .node uri⟩] ++ t2,
              by simp [addItems, hid, ht, huri, h2, exc_bind_ok]⟩
          · rw [Bool.not_eq_true] at ht
            obtain ⟨t1, h1⟩ := (ih (sizeOf (JVal.jobj fs)) hlti).1 (.jobj fs)
              le_rfl hw.1 ctx B (u ++ "_" ++ lastSegment k ++ "_" ++ toString i)
            exact ⟨(⟨u, pr, .node (u ++ "_" ++ lastSegment k ++ "_" ++ toString i)⟩ ::
                t1) ++ t2,
              by simp [addItems, hid, ht, h1, h2, exc_bind_ok]⟩
        | none =>
          obtain ⟨t1, h1⟩ := (ih (sizeOf (JVal.jobj fs)) hlti).1 (.jobj fs)
            le_rfl hw.1 ctx B (u ++ "_" ++ lastSegment k ++ "_" ++ toString i)
          exact ⟨(⟨u, pr, .node (u ++ "_" ++ lastSegment k ++ "_" ++ toString i)⟩ ::
              t1) ++ t2,
            by simp [addItems, hid, h1, h2, exc_bind_ok]⟩
      | jarr ys =>
        obtain ⟨t1, h1⟩ := (ih (sizeOf (JVal.jarr ys)) hlti).1 (.jarr ys)
          le_rfl hw.1 ctx B (u ++ "_" ++ lastSegment k ++ "_" ++ toString i)
        exact ⟨(⟨u, pr, .node (u ++ "_" ++ lastSegment k ++ "_" ++ toString i)⟩ ::
            t1) ++ t2,
          by simp [addItems, h1, h2, exc_bind_ok]⟩
      | jnull => exact ⟨[⟨u, pr, .null⟩] ++ t2, by simp [addItems, rawOf, h2, exc_bind_ok]⟩
      | jbool b =>
        exact ⟨[⟨u, pr, .rawBool b⟩] ++ t2, by simp [addItems, rawOf, h2, exc_bind_ok]⟩
      | jnum m =>
        exact ⟨[⟨u, pr, .rawNum m⟩] ++ t2, by simp [addItems, rawOf, h2, exc_bind_ok]⟩
      | jstr s =>
        exact ⟨[⟨u, pr, .rawStr s⟩] ++ t2, by simp [addItems, rawOf, h2, exc_bind_ok]⟩

/-- C1 (counterexample): the claim fails as stated — a document whose
`@type` is an array (truthy but not a string) makes the translator throw a
TypeError (`key.startsWith` is called on the array inside `resolvePrefix`),
so an exception does escape. -/
theorem C1_translator_raises_on_nonstring_type :
    parseJsonLdToStore (.jobj [("@type", .jarr [.jstr "Person"])])
      "http://ex/doc" = .error () :=
  rfl

/-- C1 (amended): for every JSON value D that is not `null` and in which
every truthy `@type` value and every truthy `@id` value of an object is a
string, `parseJsonLdToStore(D, baseUri, store)` completes without raising:
unresolvable predicates are skipped and unsupported `@context` shapes are
treated as an empty context.  (The excluded inputs do raise: `null` via the
`jsonld['@context']` access, and truthy non-string `@type`/nested-`@id`
values via `.startsWith` calls on non-strings.) -/
theorem C1_translator_no_raise (D : JVal) (B : String)
    (hD : D ≠ .jnull) (hwf : jwf D = true) :
    ∃ r, parseJsonLdToStore D B = .ok r := by
  obtain ⟨ts, hts⟩ := (addAll_ok (sizeOf D)).1 D le_rfl hwf (buildCtx D) B
    (rootId D B)
  cases D with
  | jnull => exact absurd rfl hD
  | jbool b =>
    exact ⟨(ts, rootId (.jbool b) B), by simp [parseJsonLdToStore, hts]⟩
  | jnum m =>
    exact ⟨(ts, rootId (.jnum m) B), by simp [parseJsonLdToStore, hts]⟩
  | jstr s =>
    exact ⟨(ts, rootId (.jstr s) B), by simp [parseJsonLdToStore, hts]⟩
  | jarr xs =>
    exact ⟨(ts, rootId (.jarr xs) B), by simp [parseJsonLdToStore, hts]⟩
  | jobj fs =>
    exact ⟨(ts, rootId (.jobj fs) B), by simp [parseJsonLdToStore, hts]⟩

/-- C1 (witness): a plain document translates without raising. -/
theorem C1_translator_no_raise_witness :
    ∃ r, parseJsonLdToStore (.jobj [("name", .jstr "Ada")]) "http://ex/doc" =
      .ok r :=
  C1_translator_no_raise (.jobj [("name", .jstr "Ada")]) "http://ex/doc"
    (by intro h; exact JVal.noConfusion h) (by rfl)

end JsonOs
